import Mathlib

/-!
Verification development for the Bolt download manager core
(`src/bolt/core`).  The C++ sources are shallowly embedded: machine
integers (`std::uint64_t`, `std::uint32_t`) become `ℕ` with an explicit
`% 2^64` wherever overflow can matter, `std::expected` becomes
`Except`/`Option`, strings and files become `List Char`.
-/

namespace Bolt

/-- `2^64`, the modulus of `std::uint64_t` arithmetic. -/
def U64MOD : ℕ := 2 ^ 64

/-- `a - b` on `std::uint64_t` (wrapping), for `a, b < 2^64`. -/
def u64sub (a b : ℕ) : ℕ := (a + (U64MOD - b % U64MOD)) % U64MOD

/-- `a + b` on `std::uint64_t` (wrapping). -/
def u64add (a b : ℕ) : ℕ := (a + b) % U64MOD

theorem u64sub_eq_sub {a b : ℕ} (hba : b ≤ a) (ha : a < U64MOD) :
    u64sub a b = a - b := by
  unfold u64sub U64MOD at *
  rw [Nat.mod_eq_of_lt (show b < 2 ^ 64 by omega),
    show a + (2 ^ 64 - b) = (a - b) + 2 ^ 64 by omega, Nat.add_mod_right]
  exact Nat.mod_eq_of_lt (by omega)

theorem u64add_eq_add {a b : ℕ} (h : a + b < U64MOD) : u64add a b = a + b := by
  unfold u64add U64MOD at *
  exact Nat.mod_eq_of_lt h

/-! ### Constants from `include/bolt/core/config.hpp` and
`DownloadConfig` in `include/bolt/core/download_engine.hpp`. -/

def DEFAULT_SEGMENT_SIZE : ℕ := 5 * 1024 * 1024
def MIN_SEGMENT_SIZE : ℕ := 256 * 1024
def MAX_SEGMENT_SIZE : ℕ := 50 * 1024 * 1024
/-- `DownloadConfig::MAX_SEGMENTS`, the default of the per-engine
`config_.max_segments`. -/
def CONFIG_MAX_SEGMENTS : ℕ := 16

/-! ### Decimal serialization.

`DownloadMeta::save` writes integers with `operator<<` (decimal) and
`Segment::start` builds the range header with `std::to_string`;
`DownloadMeta::load` reads them back with `std::stoull` and
`std::istringstream` extraction.  We model the decimal representation
and its parser directly. -/

/-- The character for a single decimal digit. -/
def digitChar (d : ℕ) : Char := Char.ofNat (48 + d)

/-- Little-endian decimal digits of `n`; the fuel argument makes the
recursion structural (any fuel `≥ n` gives the digits of `n`). -/
def decDigitsAux : ℕ → ℕ → List ℕ
  | 0, _ => []
  | _ + 1, 0 => []
  | fuel + 1, n + 1 => (n + 1) % 10 :: decDigitsAux fuel ((n + 1) / 10)

def decDigits (n : ℕ) : List ℕ := decDigitsAux n n

/-- Decimal character representation of `n`, most significant digit
first, as produced by `std::to_string` / stream insertion. -/
def natToChars (n : ℕ) : List Char :=
  if n = 0 then ['0'] else ((decDigits n).reverse.map digitChar)

def natToStr (n : ℕ) : String := ⟨natToChars n⟩

/-- Numeric value of one character, as used by decimal parsing
(`c - '0'`). -/
def charVal (c : Char) : ℕ := c.toNat - 48

/-- Value of a big-endian digit string, the accumulator loop of
`std::stoull` / `istream` unsigned extraction. -/
def strToNat (l : List Char) : ℕ := l.foldl (fun a c => 10 * a + charVal c) 0

/-- Little-endian value of a digit list. -/
def valLE : List ℕ → ℕ
  | [] => 0
  | d :: t => d + 10 * valLE t

theorem valLE_decDigitsAux : ∀ fuel n, n ≤ fuel → valLE (decDigitsAux fuel n) = n := by
  intro fuel
  induction fuel with
  | zero => intro n h; interval_cases n; rfl
  | succ f ih =>
    intro n h
    match n with
    | 0 => rfl
    | m + 1 =>
      have hd : (m + 1) / 10 ≤ f := by
        have := Nat.div_lt_self (Nat.succ_pos m) (by norm_num : 1 < 10)
        omega
      simp only [decDigitsAux, valLE, ih _ hd]
      omega

theorem decDigitsAux_lt_ten : ∀ fuel n d, d ∈ decDigitsAux fuel n → d < 10 := by
  intro fuel
  induction fuel with
  | zero => intro n d h; simp [decDigitsAux] at h
  | succ f ih =>
    intro n d h
    match n with
    | 0 => simp [decDigitsAux] at h
    | m + 1 =>
      simp only [decDigitsAux, List.mem_cons] at h
      rcases h with h | h
      · omega
      · exact ih _ _ h

theorem charVal_digitChar {d : ℕ} (h : d < 10) : charVal (digitChar d) = d := by
  interval_cases d <;> decide

theorem strToNat_append (l r : List Char) :
    strToNat (l ++ r) = r.foldl (fun a c => 10 * a + charVal c) (strToNat l) := by
  simp [strToNat, List.foldl_append]

/-- A big-endian fold over the reverse of little-endian digits recovers
the value. -/
theorem strToNat_reverse_map (L : List ℕ) (hL : ∀ d ∈ L, d < 10) :
    strToNat ((L.reverse).map digitChar) = valLE L := by
  induction L with
  | nil => rfl
  | cons d t ih =>
    have hd : d < 10 := hL d (List.mem_cons_self _ _)
    have ht : ∀ x ∈ t, x < 10 := fun x hx => hL x (List.mem_cons_of_mem _ hx)
    simp only [List.reverse_cons, List.map_append, strToNat_append, ih ht]
    simp only [List.map_cons, List.map_nil, List.foldl_cons, List.foldl_nil,
      charVal_digitChar hd, valLE]
    omega

/-- Round trip: parsing the decimal representation of `n` gives back
`n`. -/
theorem strToNat_natToChars (n : ℕ) : strToNat (natToChars n) = n := by
  unfold natToChars
  by_cases h : n = 0
  · subst h; decide
  · simp only [h, if_false]
    unfold decDigits
    rw [strToNat_reverse_map _ (fun d hd => decDigitsAux_lt_ten n n d hd)]
    exact valLE_decDigitsAux n n le_rfl

theorem natToChars_ne_nil (n : ℕ) : natToChars n ≠ [] := by
  unfold natToChars
  by_cases h : n = 0
  · simp [h]
  · simp only [h, if_false]
    intro hc
    have : decDigits n ≠ [] := by
      unfold decDigits
      match n, h with
      | m + 1, _ => simp [decDigitsAux]
    simp at hc
    exact this hc

/-! ### Segment model (`include/bolt/core/segment.hpp`,
`src/bolt/core/segment.cpp`).

A `Seg` carries the fields of `class Segment` that the verified
operations read or write: the identifier, HTTP range
`[offset, offset+size)`, file offset, the atomic `downloaded` counter,
the `progress_.total_bytes` / `progress_.speed_bps` fields of the
cached `SegmentProgress`, and the state.  (`atomic_write_offset_`
mirrors `downloaded`; the curl handle, timestamps and speed
accumulator play no role in the claims.) -/

inductive SegmentState
  | pending | connecting | downloading | stalled | completed | failed | cancelled
deriving DecidableEq, Repr

structure Seg where
  id : ℕ
  offset : ℕ
  size : ℕ
  file_offset : ℕ
  downloaded : ℕ
  prog_total : ℕ
  speed_bps : ℕ
  state : SegmentState
deriving DecidableEq, Repr

/-- The `Segment` constructor: counters start at 0, the cached progress
total is the size, the state is `pending`. -/
def Seg.create (id offset size file_offset : ℕ) : Seg :=
  { id := id, offset := offset, size := size, file_offset := file_offset
    downloaded := 0, prog_total := size, speed_bps := 0
    state := SegmentState.pending }

/-- `Segment::can_steal(min_steal)`: half the remaining bytes aligned
down to 4 KiB (`& ~0xFFF` clears the low 12 bits), 0 unless the segment
is `downloading` with more than `2*min_steal` bytes remaining. -/
def can_steal (s : Seg) (min_steal : ℕ) : ℕ :=
  if s.state ≠ SegmentState.downloading then 0
  else
    let remaining := u64sub s.size s.downloaded
    if remaining ≤ min_steal * 2 then 0
    else remaining / 2 / 4096 * 4096

/-- `Segment::steal_bytes(n)`: shrink this segment's `size_` by `n`. -/
def steal_bytes (s : Seg) (n : ℕ) : Seg := { s with size := u64sub s.size n }

/-- `Segment::add_bytes(n)`: grow this segment's `size_` by `n`. -/
def add_bytes (s : Seg) (n : ℕ) : Seg := { s with size := u64add s.size n }

/-- `Segment::reduce_range(new_end)`: shrink the segment so its range
ends at `new_end`; also updates `progress_.total_bytes`. -/
def reduce_range (s : Seg) (new_end : ℕ) : Seg :=
  if s.offset < new_end then
    let new_size := u64sub new_end s.offset
    if new_size < s.size then { s with size := new_size, prog_total := new_size }
    else s
  else s

/-! ### Segment planning (`DownloadEngine::create_segments` in
`src/bolt/core/download_engine.cpp` and
`SegmentCalculator::optimal_segment_size` in
`src/bolt/core/bandwidth_prober.cpp`). -/

/-- The smart-default segment count table of
`DownloadEngine::create_segments`. -/
def segCountOf (file_size : ℕ) : ℕ :=
  if file_size ≥ 100 * 1024 * 1024 then 16
  else if file_size ≥ 50 * 1024 * 1024 then 12
  else if file_size ≥ 10 * 1024 * 1024 then 6
  else if file_size ≥ 1024 * 1024 then 4
  else 2

/-- The `while (offset < file_size)` loop of
`DownloadEngine::create_segments`; `offset` and `file_offset` advance
together by `this_size = min(seg_size, file_size - offset)`.  The fuel
makes the recursion structural; any fuel `≥ file_size - offset`
suffices when `seg_size > 0`. -/
def segLoop : ℕ → ℕ → ℕ → ℕ → ℕ → ℕ → List Seg
  | 0, _, _, _, _, _ => []
  | fuel + 1, file_size, seg_size, offset, file_offset, id =>
    if offset < file_size then
      let this_size := min seg_size (file_size - offset)
      Seg.create id offset this_size file_offset ::
        segLoop fuel file_size seg_size (offset + this_size)
          (file_offset + this_size) (id + 1)
    else []

/-- `DownloadEngine::create_segments`: one segment when ranges are
unsupported or the file is smaller than `MIN_SEGMENT_SIZE`; otherwise
`seg_count` from the table and `seg_size = ceil(file_size/seg_count)`.
(The per-segment speed limit set in the same loop does not affect the
segment geometry.) -/
def create_segments (supports_ranges : Bool) (file_size : ℕ) : List Seg :=
  if ¬supports_ranges ∨ file_size < MIN_SEGMENT_SIZE then
    [Seg.create 0 0 file_size 0]
  else
    let seg_count := segCountOf file_size
    let seg_size := (file_size + seg_count - 1) / seg_count
    segLoop file_size file_size seg_size 0 0 0

/-- `SegmentCalculator::optimal_segment_size`: `DEFAULT_SEGMENT_SIZE`
for an unknown size, else `std::clamp(file_size / segment_count,
MIN_SEGMENT_SIZE, MAX_SEGMENT_SIZE)`. -/
def optimal_segment_size (file_size segment_count : ℕ) : ℕ :=
  if file_size = 0 then DEFAULT_SEGMENT_SIZE
  else
    let size := file_size / segment_count
    -- std::clamp(v, lo, hi)
    if size < MIN_SEGMENT_SIZE then MIN_SEGMENT_SIZE
    else if MAX_SEGMENT_SIZE < size then MAX_SEGMENT_SIZE
    else size

/-- The spec's planner sentence, written from its words: per-segment
size is `ceil(file_size / count)` clamped to
`[MIN_SEGMENT_SIZE, MAX_SEGMENT_SIZE]`.  Kept separate from
`optimal_segment_size` (the source) for comparison. -/
def spec_segment_size (file_size count : ℕ) : ℕ :=
  min MAX_SEGMENT_SIZE (max MIN_SEGMENT_SIZE ((file_size + count - 1) / count))

/-! ### Work stealing (`find_steal_target` in
`src/bolt/core/segment.cpp`, `DownloadEngine::attempt_work_stealing`). -/

/-- One step of the accumulator loop in `find_steal_target`. -/
def fstStep (requester_id min_bytes : ℕ) (acc : ℕ × ℕ) (seg : Seg) : ℕ × ℕ :=
  if seg.id = requester_id then acc
  else if seg.state ≠ SegmentState.downloading then acc
  else
    let removable := can_steal seg min_bytes
    if acc.2 < removable then (seg.id, removable) else acc

/-- `find_steal_target`: scan for the segment (≠ requester, currently
downloading) with the most removable bytes; none when that maximum is
0.  (The null-pointer guard of the C++ loop has no counterpart: the
embedded table holds segments, not nullable pointers.) -/
def find_steal_target (segments : List Seg) (requester_id min_bytes : ℕ) :
    Option (ℕ × ℕ) :=
  let r := segments.foldl (fstStep requester_id min_bytes) (0, 0)
  if r.2 = 0 then none else some r

/-- Replace the first element satisfying `p` (the `break` in the inner
loop of `attempt_work_stealing`). -/
def apply_first (p : Seg → Bool) (f : Seg → Seg) : List Seg → List Seg
  | [] => []
  | s :: t => if p s then f s :: t else s :: apply_first p f t

/-- The body of `DownloadEngine::attempt_work_stealing` for the
requester at index `ri`: if the requester is downloading below
100 KB/s, find a steal target and transfer the bytes — the donor's
`steal_bytes` and the requester's `add_bytes`. -/
def work_steal_step (segments : List Seg) (ri : ℕ) : List Seg :=
  if segments.length < 2 then segments
  else
    match segments.get? ri with
    | none => segments
    | some req =>
      if req.state = SegmentState.downloading ∧ req.speed_bps < 100000 then
        match find_steal_target segments req.id 1000000 with
        | some (target_id, bytes) =>
          let segs1 := apply_first (fun s => s.id == target_id)
            (fun s => steal_bytes s bytes) segments
          segs1.set ri (add_bytes req bytes)
        | none => segments
      else segments

/-! ### Dynamic segmentation (`DownloadEngine::dynamic_segmentation`). -/

/-- Remaining bytes as `dynamic_segmentation` computes them from a
progress snapshot: `prog.total_bytes - prog.downloaded_bytes`. -/
def remaining_dyn (s : Seg) : ℕ := u64sub s.prog_total s.downloaded

/-- The scan loop of `dynamic_segmentation`: index of the downloading
segment with strictly the most remaining bytes, that maximum, and the
count of active (`downloading` or `connecting`) segments. -/
def dynScan (segments : List Seg) : Option ℕ × ℕ × ℕ :=
  (segments.enum).foldl
    (fun (acc : Option ℕ × ℕ × ℕ) (p : ℕ × Seg) =>
      let ac := if p.2.state = SegmentState.downloading ∨
          p.2.state = SegmentState.connecting then acc.2.2 + 1 else acc.2.2
      if p.2.state = SegmentState.downloading ∧ acc.2.1 < remaining_dyn p.2 then
        (some p.1, remaining_dyn p.2, ac)
      else (acc.1, acc.2.1, ac))
    (none, 0, 0)

/-- `DownloadEngine::dynamic_segmentation`: when fewer than
`max_segments` segments are active and the largest downloading segment
has more than `2 * MIN_SEGMENT_SIZE` bytes remaining, split its
remaining range in half: `reduce_range` the existing segment to end at
the split boundary and append a new segment for the tail (id = current
table length; `start()` moves it out of `pending` immediately, which
does not affect its geometry). -/
def dynamic_segmentation (max_segments : ℕ) (segments : List Seg) : List Seg :=
  match dynScan segments with
  | (some li, max_remaining, active_count) =>
    if active_count < max_segments ∧ MIN_SEGMENT_SIZE * 2 < max_remaining then
      match segments.get? li with
      | some largest =>
        let remaining := remaining_dyn largest
        let split_bytes := remaining / 2
        if MIN_SEGMENT_SIZE ≤ split_bytes then
          let new_end := u64add (u64add largest.offset largest.downloaded) split_bytes
          let segs1 := segments.set li (reduce_range largest new_end)
          segs1 ++ [{ Seg.create segments.length new_end split_bytes new_end with
            state := SegmentState.connecting }]
        else segments
      | none => segments
    else segments
  | (none, _, _) => segments

/-- Sum of the per-segment `size_` fields — the quantity §8's invariant
3 relates to the engine's total size. -/
def sumSizes (l : List Seg) : ℕ := (l.map Seg.size).sum

/-! ### Engine state machine (`include/bolt/core/download_engine.hpp`,
`src/bolt/core/download_engine.cpp`). -/

inductive DownloadState
  | idle | preparing | downloading | paused | stalled | completing
  | completed | failed | cancelled
deriving DecidableEq, Repr

/-- The error kinds of `DownloadErrc` (`include/bolt/core/error.hpp`). -/
inductive DownloadErrc
  | success | network_error | timeout | refused | not_found | server_error
  | disk_full | permission_denied | file_exists | invalid_url | invalid_range
  | checksum_mismatch | resume_failed | cancelled | no_bandwidth
  | stall_detected | too_many_redirects | ssl_error | dns_error
  | connection_lost
deriving DecidableEq, Repr

/-- The state guard at the top of `DownloadEngine::start()`: starting is
rejected with `network_error` while the engine is `downloading`,
`completed`, `failed` or `cancelled`. -/
def start_precheck (s : DownloadState) : Option DownloadErrc :=
  if s = DownloadState.downloading ∨ s = DownloadState.completed ∨
      s = DownloadState.failed ∨ s = DownloadState.cancelled then
    some DownloadErrc.network_error
  else none

/-- The termination check of one `download_loop` tick: count the
segments by state; all `completed` ⇒ engine `completed` and the meta
file is deleted (`delete_meta`); some `failed` and the rest `completed`
⇒ engine `failed`, meta retained.  Returns the terminal engine state
paired with whether the meta was deleted, or `none` when the loop
continues. -/
def check_termination (states : List SegmentState) : Option (DownloadState × Bool) :=
  let completed := states.countP (fun s => s = SegmentState.completed)
  let failed := states.countP (fun s => s = SegmentState.failed)
  if completed = states.length then some (DownloadState.completed, true)
  else if 0 < failed ∧ completed + failed = states.length then
    some (DownloadState.failed, false)
  else none

/-! ### Resume metadata (`include/bolt/core/download_meta.hpp`,
`src/bolt/core/download_meta.cpp`). -/

structure SegmentMeta where
  id : ℕ
  offset : ℕ
  size : ℕ
  file_offset : ℕ
  downloaded : ℕ
deriving DecidableEq, Repr

structure DownloadMeta where
  url : String
  output_path : String
  file_size : ℕ
  total_downloaded : ℕ
  segments : List SegmentMeta
deriving DecidableEq, Repr

/-- One segment line of `DownloadMeta::save`:
`id offset size file_offset downloaded`, space separated, decimal. -/
def segMetaLine (sm : SegmentMeta) : List Char :=
  natToChars sm.id ++ (' ' :: (natToChars sm.offset ++ (' ' :: (natToChars sm.size
    ++ (' ' :: (natToChars sm.file_offset ++ (' ' :: natToChars sm.downloaded)))))))

/-- `DownloadMeta::save`, modeled as the byte content it writes: each
line is terminated by `'\n'`.  (Directory creation and stream-open
failures are filesystem effects outside the byte-level model.) -/
def DownloadMeta.save (m : DownloadMeta) : List Char :=
  m.url.data ++ '\n' ::
  (m.output_path.data ++ '\n' ::
  (natToChars m.file_size ++ '\n' ::
  (natToChars m.total_downloaded ++ '\n' ::
  (natToChars m.segments.length ++ '\n' ::
    (m.segments.map (fun sm => segMetaLine sm ++ ['\n'])).flatten))))

/-- `std::getline`: consume up to the first `'\n'` (discarded); at end
of stream the extraction fails. -/
def getLine : List Char → List Char × List Char
  | [] => ([], [])
  | c :: cs =>
    if c = '\n' then ([], cs)
    else
      let r := getLine cs
      (c :: r.1, r.2)

def getLine? (cs : List Char) : Option (List Char × List Char) :=
  if cs.isEmpty then none else some (getLine cs)

/-- Whitespace as skipped by stream extraction. -/
def wsChar (c : Char) : Bool := c = ' ' ∨ c = '\t' ∨ c = '\n' ∨ c = '\r'

def isDig (c : Char) : Bool := 48 ≤ c.toNat ∧ c.toNat ≤ 57

/-- `std::stoull` on a line: skip whitespace, parse a run of decimal
digits, throw (`none`) if there is none.  (The sign handling of
`stoull` never arises: the saver only writes unsigned decimals.) -/
def stoullOpt (l : List Char) : Option ℕ :=
  let l1 := l.dropWhile wsChar
  let digs := l1.takeWhile isDig
  if digs.isEmpty then none else some (strToNat digs)

/-- `istringstream >> unsigned`: skip whitespace, read a digit run;
extraction failure leaves the value 0 (and further extractions
likewise, so positional parsing of a well-formed line is unaffected). -/
def parseField (cs : List Char) : ℕ × List Char :=
  let l1 := cs.dropWhile wsChar
  let digs := l1.takeWhile isDig
  (strToNat digs, l1.dropWhile isDig)

/-- Parsing one segment line, mirroring
`iss >> seg.id >> seg.offset >> seg.size >> seg.file_offset >> seg.downloaded`. -/
def parseSegLine (cs : List Char) : SegmentMeta :=
  let p1 := parseField cs
  let p2 := parseField p1.2
  let p3 := parseField p2.2
  let p4 := parseField p3.2
  let p5 := parseField p4.2
  { id := p1.1, offset := p2.1, size := p3.1, file_offset := p4.1
    downloaded := p5.1 }

/-- The segment-reading loop of `DownloadMeta::load`. -/
def loadSegs : ℕ → List Char → Option (List SegmentMeta × List Char)
  | 0, cs => some ([], cs)
  | n + 1, cs => do
    let some (line, rest) := getLine? cs | none
    let some (tail, rest2) := loadSegs n rest | none
    some (parseSegLine line :: tail, rest2)

/-- `DownloadMeta::load`, on the byte content of the file.  The error
kinds match the source: a missing header line yields `invalid_url` or
`invalid_range` as there, and a `std::stoull` throw is caught by the
enclosing `catch (...)` which yields `invalid_url`.  (The
`file_not_found` case for an unopenable file is a filesystem effect
outside the byte-level model.) -/
def DownloadMeta.load (cs : List Char) : Except DownloadErrc DownloadMeta := do
  let some (urlLine, r1) := getLine? cs | throw DownloadErrc.invalid_url
  let some (outLine, r2) := getLine? r1 | throw DownloadErrc.invalid_url
  let some (l3, r3) := getLine? r2 | throw DownloadErrc.invalid_range
  let some fileSize := stoullOpt l3 | throw DownloadErrc.invalid_url
  let some (l4, r4) := getLine? r3 | throw DownloadErrc.invalid_range
  let some totalDownloaded := stoullOpt l4 | throw DownloadErrc.invalid_url
  let some (l5, r5) := getLine? r4 | throw DownloadErrc.invalid_range
  let some segCount := stoullOpt l5 | throw DownloadErrc.invalid_url
  let some (segs, _) := loadSegs segCount r5 | throw DownloadErrc.invalid_range
  pure { url := ⟨urlLine⟩, output_path := ⟨outLine⟩, file_size := fileSize
         total_downloaded := totalDownloaded, segments := segs }

/-! ### Preparation (`DownloadEngine::prepare`). -/

/-- Restoring one segment from the meta in `prepare`: the `Segment`
constructor followed by `set_downloaded(sm.downloaded)`. -/
def restore_segment (sm : SegmentMeta) : Seg :=
  { Seg.create sm.id sm.offset sm.size sm.file_offset with
    downloaded := sm.downloaded }

/-- The segment-planning part of `DownloadEngine::prepare`: the HEAD
result fixes `file_size_` and `supports_ranges_` (forced off when the
size is unknown); a loadable meta whose `url` and `file_size` match the
live values is restored (`resuming = true`), anything else falls back
to `create_segments`.  `metaFile` is the loaded meta when
`DownloadMeta::exists` and `DownloadMeta::load` both succeed, `none`
otherwise.  Returns the segment table and the `resuming` flag. -/
def prepare_segments (metaFile : Option DownloadMeta) (live_url : String)
    (head_size : ℕ) (head_ranges : Bool) : List Seg × Bool :=
  let supports := if head_size = 0 then false else head_ranges
  match metaFile with
  | some m =>
    if m.url = live_url ∧ m.file_size = head_size then
      (m.segments.map restore_segment, true)
    else (create_segments supports head_size, false)
  | none => (create_segments supports head_size, false)

/-! ### Worker range request (`Segment::start` in
`src/bolt/core/segment.cpp`). -/

/-- The `Range` header value built in `Segment::start`:
`to_string(offset + downloaded) ++ "-" ++ to_string(offset + size - 1)`
in `uint64` arithmetic; `none` when `start_byte > end_byte` (the
segment is already fully downloaded and completes without a request). -/
def range_request (offset size downloaded : ℕ) : Option String :=
  let start_byte := u64add offset downloaded
  let end_byte := u64sub (u64add offset size) 1
  if start_byte > end_byte then none
  else some (natToStr start_byte ++ "-" ++ natToStr end_byte)

/-! ### Progress (`Segment::percent`). -/

/-- `Segment::percent`: 100.0 when `size_ == 0`, otherwise
`downloaded * 100.0 / size_`.  The `double` arithmetic is modeled
exactly over `ℚ`. -/
def Seg.percent (s : Seg) : ℚ :=
  if s.size = 0 then 100
  else (s.downloaded : ℚ) * 100 / (s.size : ℚ)

/-! ### URL parsing (`src/bolt/core/url.cpp`).

Strings are `List Char`; `std::string_view::find` is modeled by
`findSub`/`findCharFrom` returning `Option ℕ` in place of `npos`.  The
`substr` count arguments are computed in `size_t` arithmetic, so a
negative difference wraps to a huge count and `substr` clamps at the
end of the string — `cppCount` reproduces that. -/

structure Url where
  scheme : List Char := []
  host : List Char := []
  port : List Char := []
  path : List Char := []
  query : List Char := []
  fragment : List Char := []
deriving DecidableEq, Repr

/-- `std::string_view::find(pat)`: first index where `pat` occurs. -/
def findSub (s pat : List Char) : Option ℕ :=
  (List.range (s.length + 1)).find? (fun i => pat.isPrefixOf (s.drop i))

/-- `std::string_view::find(c, from)`: first index `≥ from` holding
`c`. -/
def findCharFrom (s : List Char) (c : Char) (start : ℕ) : Option ℕ :=
  match (s.drop start).findIdx? (fun x => x = c) with
  | some i => some (start + i)
  | none => none

/-- `substr(pos, count)` where `count` was computed as `b - a` in
`size_t`: wraps below zero to a huge count, which `substr` clamps. -/
def cppCount (b a : ℕ) : ℕ := u64sub b a

def cppSubstr (s : List Char) (pos count : ℕ) : List Char :=
  (s.drop pos).take count

/-- `std::tolower` in the default locale: ASCII upper case only. -/
def lowerChar (c : Char) : Char :=
  if 65 ≤ c.toNat ∧ c.toNat ≤ 90 then Char.ofNat (c.toNat + 32) else c

/-- The body of `Url::parse` after the scheme delimiter was found at
`scheme_end`: computes every component; host validation happens in
`Url.parse` afterwards, exactly as in the source. -/
def urlComponents (s : List Char) (scheme_end : ℕ) : Url :=
  let len := s.length
  let scheme := (s.take scheme_end).map lowerChar
  let rest_start := scheme_end + 3
  let path_start := (findCharFrom s '/' rest_start).getD len
  let query_start := (findCharFrom s '?' rest_start).getD len
  let fragment_start := (findCharFrom s '#' rest_start).getD len
  let host_end := min (min path_start query_start) (min fragment_start len)
  let colon_pos := findCharFrom s ':' rest_start
  let at_pos := findCharFrom s '@' rest_start
  let bracket_start := findCharFrom s '[' rest_start
  let authority_start :=
    match at_pos with
    | some a => if a < host_end then a + 1 else rest_start
    | none => rest_start
  let hostPort : List Char × List Char :=
    match bracket_start with
    | some bs =>
      if bs < host_end then
        match findCharFrom s ']' bs with
        | some be =>
          if be < host_end then
            let host := cppSubstr s bs (be - bs + 1)
            match findCharFrom s ':' be with
            | some ic =>
              if ic < host_end then
                (host, cppSubstr s (ic + 1) (cppCount host_end (ic + 1)))
              else (host, [])
            | none => (host, [])
          else (cppSubstr s authority_start (cppCount host_end authority_start), [])
        | none => (cppSubstr s authority_start (cppCount host_end authority_start), [])
      else
        match colon_pos with
        | some cp =>
          if authority_start < cp ∧ cp < host_end then
            (cppSubstr s authority_start (cppCount cp authority_start),
             cppSubstr s (cp + 1) (cppCount host_end (cp + 1)))
          else (cppSubstr s authority_start (cppCount host_end authority_start), [])
        | none => (cppSubstr s authority_start (cppCount host_end authority_start), [])
    | none =>
      match colon_pos with
      | some cp =>
        if authority_start < cp ∧ cp < host_end then
          (cppSubstr s authority_start (cppCount cp authority_start),
           cppSubstr s (cp + 1) (cppCount host_end (cp + 1)))
        else (cppSubstr s authority_start (cppCount host_end authority_start), [])
      | none => (cppSubstr s authority_start (cppCount host_end authority_start), [])
  let path :=
    if path_start < len then
      cppSubstr s path_start (cppCount (min query_start fragment_start) path_start)
    else ['/']
  let query :=
    if query_start < len ∧ query_start < fragment_start then
      cppSubstr s (query_start + 1) (cppCount fragment_start (query_start + 1))
    else []
  let fragment := if fragment_start < len then s.drop (fragment_start + 1) else []
  { scheme := scheme, host := hostPort.1, port := hostPort.2
    path := path, query := query, fragment := fragment }

/-- `Url::parse`: fail unless the input contains `"://"`; compute the
components; fail when the extracted host is empty.  (`str_`, the stored
full input, carries no information the claims use.) -/
def Url.parse (s : List Char) : Except DownloadErrc Url :=
  match findSub s "://".data with
  | none => throw DownloadErrc.invalid_url
  | some scheme_end =>
    let u := urlComponents s scheme_end
    if u.host = [] then throw DownloadErrc.invalid_url
    else pure u

/-! ### Proof-level predicates. -/

/-- Byte `i` of the file lies in the HTTP range of segment `s`. -/
def segCovers (s : Seg) (i : ℕ) : Bool := s.offset ≤ i ∧ i < s.offset + s.size

/-- The segments of `l` tile `[o, fs)` with consecutive ranges. -/
def Chained : ℕ → ℕ → List Seg → Prop
  | o, fs, [] => o = fs
  | o, fs, s :: t => s.offset = o ∧ Chained (o + s.size) fs t

/-- What a `some` result of the `find_steal_target` scan certifies:
some segment of `l`, distinct from the requester and currently
downloading, has id `r.1` and removable amount `r.2`. -/
def StealWitness (requester_id min_bytes : ℕ) (l : List Seg) (r : ℕ × ℕ) : Prop :=
  ∃ t ∈ l, t.id = r.1 ∧ t.id ≠ requester_id ∧
    t.state = SegmentState.downloading ∧ can_steal t min_bytes = r.2

/-- A downloading segment whose remaining byte count `524289 =
2 * MIN_SEGMENT_SIZE + 1` is odd: the concrete input on which the
dynamic split loses a byte. -/
def oddSplitSeg : Seg :=
  { Seg.create 0 0 524289 0 with state := SegmentState.downloading }

/-! # Theorems -/

/-! ## C10 — `Segment::percent` is total and guarded -/

/-- C10: `Segment::percent` is total: with `size_ == 0` it returns
100.0 without dividing, and otherwise it returns
`downloaded * 100 / size`; the division only happens under the
`size != 0` guard. -/
theorem segment_percent_total (s : Seg) :
    (s.size = 0 → s.percent = 100) ∧
    (s.size ≠ 0 → s.percent = (s.downloaded : ℚ) * 100 / (s.size : ℚ)) := by
  constructor <;> intro h <;> simp [Seg.percent, h]

/-- Witness for C10 at segments of size 0 and size 500 with 100 bytes
downloaded. -/
theorem segment_percent_total_witness :
    (Seg.create 0 0 0 0).percent = 100 ∧
    ({ Seg.create 1 0 500 0 with downloaded := 100 } : Seg).percent = 20 := by
  constructor
  · exact (segment_percent_total _).1 rfl
  · have h := (segment_percent_total
      { Seg.create 1 0 500 0 with downloaded := 100 }).2 (by decide)
    rw [h]; norm_num [Seg.create]

/-! ## C2 — per-segment size of the planner helper -/

/-- C2 counterexample: the claim says the planner's per-segment size is
`ceil(file_size / count)` clamped, but
`SegmentCalculator::optimal_segment_size` divides with floor: at
`file_size = 2 MiB + 1`, `count = 2` the code yields 1048576 while the
claimed formula yields 1048577. -/
theorem planner_size_counterexample :
    optimal_segment_size 2097153 2 = 1048576 ∧
    spec_segment_size 2097153 2 = 1048577 ∧
    optimal_segment_size 2097153 2 ≠ spec_segment_size 2097153 2 := by
  refine ⟨by decide, by decide, by decide⟩

/-- C2 amended: for a known file size the planner's per-segment size is
`floor(file_size / count)` clamped to
`[MIN_SEGMENT_SIZE, MAX_SEGMENT_SIZE]`; an unknown (0) file size yields
`DEFAULT_SEGMENT_SIZE`.  (`count > 0`: a zero count would divide by
zero in the C++.) -/
theorem planner_size_amended (file_size count : ℕ) (_hc : 0 < count) :
    optimal_segment_size file_size count =
      if file_size = 0 then DEFAULT_SEGMENT_SIZE
      else min MAX_SEGMENT_SIZE (max MIN_SEGMENT_SIZE (file_size / count)) := by
  unfold optimal_segment_size
  by_cases h : file_size = 0
  · simp [h]
  · simp only [h, if_false]
    unfold MIN_SEGMENT_SIZE MAX_SEGMENT_SIZE
    split_ifs <;> omega

/-- Witness for C2 at `file_size = 2097153`, `count = 2`. -/
theorem planner_size_amended_witness :
    optimal_segment_size 2097153 2 =
      if (2097153 : ℕ) = 0 then DEFAULT_SEGMENT_SIZE
      else min MAX_SEGMENT_SIZE (max MIN_SEGMENT_SIZE (2097153 / 2)) :=
  planner_size_amended 2097153 2 (by decide)

/-! ## C8 — the worker's ranged GET -/

/-- C8: for a segment with `size > 0` and `downloaded < size` the
worker requests bytes `offset + downloaded` through
`offset + size - 1`, serialized as the decimal string
`"<start>-<end>"`; in particular offset 1000, size 500, downloaded 0
yields exactly `"1000-1499"`. -/
theorem worker_range_request :
    (∀ offset size downloaded : ℕ, 0 < size → downloaded < size →
      offset + size < U64MOD →
      range_request offset size downloaded =
        some (natToStr (offset + downloaded) ++ "-" ++ natToStr (offset + size - 1))) ∧
    range_request 1000 500 0 = some "1000-1499" := by
  constructor
  · intro offset size downloaded hs hd hm
    unfold range_request
    have h1 : u64add offset downloaded = offset + downloaded :=
      u64add_eq_add (by omega)
    have h2 : u64add offset size = offset + size := u64add_eq_add hm
    have h3 : u64sub (offset + size) 1 = offset + size - 1 :=
      u64sub_eq_sub (by omega) hm
    simp only [h1, h2, h3]
    rw [if_neg (by omega)]
  · decide

/-- Witness for C8 at offset 1000, size 500, downloaded 0. -/
theorem worker_range_request_witness :
    range_request 1000 500 0 =
      some (natToStr (1000 + 0) ++ "-" ++ natToStr (1000 + 500 - 1)) :=
  worker_range_request.1 1000 500 0 (by decide) (by decide) (by decide)

/-! ## Helper lemmas for C1 — work stealing preserves the size sum -/

theorem size_le_sumSizes {t : Seg} : ∀ l : List Seg, t ∈ l → t.size ≤ sumSizes l := by
  intro l
  induction l with
  | nil => intro h; simp at h
  | cons s r ih =>
    intro h
    rcases List.mem_cons.mp h with h | h
    · subst h; simp [sumSizes]
    · have := ih h
      simp only [sumSizes, List.map_cons, List.sum_cons]
      unfold sumSizes at this
      omega

theorem fstFold_inv (rid min_bytes : ℕ) :
    ∀ (l : List Seg) (acc : ℕ × ℕ) (C : ℕ × ℕ → Prop), (acc.2 = 0 ∨ C acc) →
      (l.foldl (fstStep rid min_bytes) acc).2 = 0 ∨
        C (l.foldl (fstStep rid min_bytes) acc) ∨
        StealWitness rid min_bytes l (l.foldl (fstStep rid min_bytes) acc) := by
  intro l
  induction l with
  | nil =>
    intro acc C h
    rcases h with h | h
    · exact Or.inl h
    · exact Or.inr (Or.inl h)
  | cons s t ih =>
    intro acc C h
    simp only [List.foldl_cons]
    by_cases h1 : s.id = rid
    · have hstep : fstStep rid min_bytes acc s = acc := by
        unfold fstStep; rw [if_pos h1]
      rw [hstep]
      rcases ih acc C h with h2 | h2 | h2
      · exact Or.inl h2
      · exact Or.inr (Or.inl h2)
      · obtain ⟨w, hw, hrest⟩ := h2
        exact Or.inr (Or.inr ⟨w, List.mem_cons_of_mem s hw, hrest⟩)
    · by_cases h2 : s.state = SegmentState.downloading
      · by_cases h3 : acc.2 < can_steal s min_bytes
        · have hstep : fstStep rid min_bytes acc s = (s.id, can_steal s min_bytes) := by
            unfold fstStep
            rw [if_neg h1, if_neg (by simp [h2]), if_pos h3]
          rw [hstep]
          have hC : ((s.id, can_steal s min_bytes) : ℕ × ℕ).2 = 0 ∨
              (fun r : ℕ × ℕ => s.id = r.1 ∧ s.state = SegmentState.downloading ∧
                can_steal s min_bytes = r.2) (s.id, can_steal s min_bytes) :=
            Or.inr ⟨rfl, h2, rfl⟩
          rcases ih (s.id, can_steal s min_bytes)
            (fun r : ℕ × ℕ => s.id = r.1 ∧ s.state = SegmentState.downloading ∧
              can_steal s min_bytes = r.2) hC with h4 | h4 | h4
          · exact Or.inl h4
          · exact Or.inr (Or.inr ⟨s, List.mem_cons_self s t, h4.1, h1, h4.2⟩)
          · obtain ⟨w, hw, hrest⟩ := h4
            exact Or.inr (Or.inr ⟨w, List.mem_cons_of_mem s hw, hrest⟩)
        · have hstep : fstStep rid min_bytes acc s = acc := by
            unfold fstStep
            rw [if_neg h1, if_neg (by simp [h2]), if_neg h3]
          rw [hstep]
          rcases ih acc C h with h4 | h4 | h4
          · exact Or.inl h4
          · exact Or.inr (Or.inl h4)
          · obtain ⟨w, hw, hrest⟩ := h4
            exact Or.inr (Or.inr ⟨w, List.mem_cons_of_mem s hw, hrest⟩)
      · have hstep : fstStep rid min_bytes acc s = acc := by
          unfold fstStep
          rw [if_neg h1, if_pos (by simp [h2])]
        rw [hstep]
        rcases ih acc C h with h4 | h4 | h4
        · exact Or.inl h4
        · exact Or.inr (Or.inl h4)
        · obtain ⟨w, hw, hrest⟩ := h4
          exact Or.inr (Or.inr ⟨w, List.mem_cons_of_mem s hw, hrest⟩)

theorem find_steal_target_spec {segs : List Seg} {rid min_bytes tid bytes : ℕ}
    (h : find_steal_target segs rid min_bytes = some (tid, bytes)) :
    0 < bytes ∧ StealWitness rid min_bytes segs (tid, bytes) := by
  simp only [find_steal_target] at h
  by_cases h0 : (segs.foldl (fstStep rid min_bytes) (0, 0)).2 = 0
  · rw [if_pos h0] at h
    exact absurd h (by simp)
  · rw [if_neg h0] at h
    have heq : segs.foldl (fstStep rid min_bytes) (0, 0) = (tid, bytes) := by
      injection h
    rcases fstFold_inv rid min_bytes segs (0, 0) (fun _ => False) (Or.inl rfl)
      with h1 | h1 | h1
    · rw [heq] at h1 h0; exact absurd h1 h0
    · exact absurd h1 (by simp)
    · rw [heq] at h1 h0
      exact ⟨Nat.pos_of_ne_zero h0, h1⟩

theorem can_steal_le {t : Seg} {min_bytes : ℕ} (hd : t.downloaded ≤ t.size)
    (hs : t.size < U64MOD) : can_steal t min_bytes ≤ t.size := by
  unfold can_steal
  split
  · exact Nat.zero_le _
  · rw [u64sub_eq_sub hd hs]
    show (if t.size - t.downloaded ≤ min_bytes * 2 then 0
      else (t.size - t.downloaded) / 2 / 4096 * 4096) ≤ t.size
    split
    · exact Nat.zero_le _
    · calc (t.size - t.downloaded) / 2 / 4096 * 4096
          ≤ (t.size - t.downloaded) / 2 := Nat.div_mul_le_self _ _
        _ ≤ t.size - t.downloaded := Nat.div_le_self _ _
        _ ≤ t.size := Nat.sub_le _ _

theorem sumSizes_apply_first (f : Seg → Seg) (tid : ℕ) :
    ∀ l : List Seg, (l.map Seg.id).Nodup → ∀ t ∈ l, t.id = tid →
      sumSizes (apply_first (fun s => s.id == tid) f l) + t.size =
        sumSizes l + (f t).size := by
  intro l
  induction l with
  | nil => intro _ t ht; simp at ht
  | cons s r ih =>
    intro hnd t ht htid
    simp only [List.map_cons, List.nodup_cons] at hnd
    by_cases hp : s.id = tid
    · have hts : t = s := by
        rcases List.mem_cons.mp ht with h | h
        · exact h
        · exfalso
          apply hnd.1
          have hmem : t.id ∈ List.map Seg.id r := List.mem_map.mpr ⟨t, h, rfl⟩
          rw [htid] at hmem
          rw [hp]
          exact hmem
      subst hts
      simp only [apply_first, beq_iff_eq, if_pos hp, sumSizes, List.map_cons,
        List.sum_cons]
      omega
    · have htr : t ∈ r := by
        rcases List.mem_cons.mp ht with h | h
        · exact absurd (h ▸ htid) hp
        · exact h
      have := ih hnd.2 t htr htid
      simp only [apply_first, beq_iff_eq, if_neg hp, sumSizes, List.map_cons,
        List.sum_cons]
      unfold sumSizes at this
      omega

theorem apply_first_get?_of_neg (p : Seg → Bool) (f : Seg → Seg) :
    ∀ (l : List Seg) (i : ℕ) (x : Seg), l.get? i = some x → p x = false →
      (apply_first p f l).get? i = some x := by
  intro l
  induction l with
  | nil => intro i x h _; simp at h
  | cons s r ih =>
    intro i x h hx
    cases i with
    | zero =>
      simp only [List.get?] at h
      injection h with h
      subst h
      simp only [apply_first, hx, Bool.false_eq_true, if_false, List.get?]
    | succ j =>
      simp only [List.get?] at h
      by_cases hp : p s
      · simp only [apply_first, hp, if_true, List.get?]
        exact h
      · simp only [apply_first, hp, Bool.false_eq_true, if_false, List.get?]
        exact ih j x h hx

theorem sumSizes_set : ∀ (l : List Seg) (i : ℕ) (x v : Seg), l.get? i = some x →
    sumSizes (l.set i v) + x.size = sumSizes l + v.size := by
  intro l
  induction l with
  | nil => intro i x v h; simp at h
  | cons s r ih =>
    intro i x v h
    cases i with
    | zero =>
      simp only [List.get?] at h
      injection h with h
      subst h
      simp only [List.set, sumSizes, List.map_cons, List.sum_cons]
      omega
    | succ j =>
      simp only [List.get?] at h
      have := ih j x v h
      simp only [List.set, sumSizes, List.map_cons, List.sum_cons]
      unfold sumSizes at this
      omega

/-! ## C1 — sum of segment sizes across steal and split steps -/

/-- C1: a work-steal step (donor `steal_bytes`, requester `add_bytes`)
preserves the sum of per-segment sizes, for every table whose ids are
unique, whose `downloaded ≤ size` invariant holds and whose size sum
fits in `uint64`.  A dynamic-split step does NOT: on the concrete table
`[oddSplitSeg]` (one downloading segment, size `524289 =
2 * MIN_SEGMENT_SIZE + 1`, nothing downloaded) the split produces
sizes summing to 524288 — the byte at the split boundary is covered by
neither half, so the claimed invariant fails for dynamic splits. -/
theorem steal_preserves_split_loses_sizes :
    (∀ (segs : List Seg) (ri : ℕ),
      (∀ s ∈ segs, s.downloaded ≤ s.size) →
      sumSizes segs < U64MOD →
      (segs.map Seg.id).Nodup →
      sumSizes (work_steal_step segs ri) = sumSizes segs) ∧
    (sumSizes [oddSplitSeg] = 524289 ∧
     sumSizes (dynamic_segmentation CONFIG_MAX_SEGMENTS [oddSplitSeg]) = 524288) := by
  constructor
  · intro segs ri hdl hsum hnd
    unfold work_steal_step
    split
    · rfl
    · split
      · rfl
      · rename_i req hreq
        split
        · cases hfind : find_steal_target segs req.id 1000000 with
          | none => rfl
          | some tgt =>
            obtain ⟨tid, bytes⟩ := tgt
            show sumSizes ((apply_first (fun s => s.id == tid)
              (fun s => steal_bytes s bytes) segs).set ri (add_bytes req bytes)) =
                sumSizes segs
            obtain ⟨hby, t, htmem, htid, htne, htdl, htcs⟩ :=
              find_steal_target_spec hfind
            dsimp only at htid htcs
            have hts : t.size ≤ sumSizes segs := size_le_sumSizes segs htmem
            have hbytes : bytes ≤ t.size := by
              rw [← htcs]
              exact can_steal_le (hdl t htmem) (by omega)
            have hsum1 := sumSizes_apply_first (fun s => steal_bytes s bytes) tid
              segs hnd t htmem htid
            have hsteal : (steal_bytes t bytes).size = t.size - bytes := by
              unfold steal_bytes
              exact u64sub_eq_sub hbytes (by omega)
            rw [hsteal] at hsum1
            have hreqne : (req.id == tid) = false := by
              simp only [beq_eq_false_iff_ne, ne_eq]
              intro hc
              exact htne (htid.trans hc.symm)
            have hreq1 := apply_first_get?_of_neg (fun s => s.id == tid)
              (fun s => steal_bytes s bytes) segs ri req hreq hreqne
            have hreqmem : req ∈ apply_first (fun s => s.id == tid)
                (fun s => steal_bytes s bytes) segs := List.get?_mem hreq1
            have hreqle : req.size ≤ sumSizes (apply_first (fun s => s.id == tid)
                (fun s => steal_bytes s bytes) segs) :=
              size_le_sumSizes _ hreqmem
            have hadd : (add_bytes req bytes).size = req.size + bytes := by
              unfold add_bytes
              exact u64add_eq_add (by omega)
            have hsum2 := sumSizes_set
              (apply_first (fun s => s.id == tid) (fun s => steal_bytes s bytes) segs)
              ri req (add_bytes req bytes) hreq1
            rw [hadd] at hsum2
            omega
        · rfl
  · exact ⟨by decide, by decide⟩

/-- Witness for C1 on a two-segment table: a slow requester steals half
of the donor's remaining bytes (4 KiB aligned) and the size sum is
unchanged. -/
theorem steal_preserves_split_loses_sizes_witness :
    sumSizes (work_steal_step
      [{ Seg.create 0 0 10000000 0 with state := SegmentState.downloading },
       { Seg.create 1 10000000 10000000 10000000 with
         state := SegmentState.downloading }] 0) =
    sumSizes
      [{ Seg.create 0 0 10000000 0 with state := SegmentState.downloading },
       { Seg.create 1 10000000 10000000 10000000 with
         state := SegmentState.downloading }] :=
  steal_preserves_split_loses_sizes.1 _ 0 (by decide) (by decide) (by decide)

/-! ## Termination tick of `download_loop` (shared by C5 and C4) -/

theorem check_termination_all_completed (states : List SegmentState)
    (h : ∀ s ∈ states, s = SegmentState.completed) :
    check_termination states = some (DownloadState.completed, true) := by
  unfold check_termination
  rw [if_pos (List.countP_eq_length.mpr (fun a ha => by simp [h a ha]))]

theorem countP_partition_cf : ∀ states : List SegmentState,
    (∀ s ∈ states, s = SegmentState.completed ∨ s = SegmentState.failed) →
    states.countP (fun s => s = SegmentState.completed) +
      states.countP (fun s => s = SegmentState.failed) = states.length := by
  intro states
  induction states with
  | nil => intro _; rfl
  | cons a t ih =>
    intro hall
    have ht := ih (fun s hs => hall s (List.mem_cons_of_mem a hs))
    rcases hall a (List.mem_cons_self a t) with h | h <;>
      simp [List.countP_cons, h] <;> omega

theorem check_termination_some_failed (states : List SegmentState)
    (hall : ∀ s ∈ states, s = SegmentState.completed ∨ s = SegmentState.failed)
    (hex : ∃ s ∈ states, s = SegmentState.failed) :
    check_termination states = some (DownloadState.failed, false) := by
  unfold check_termination
  obtain ⟨w, hw, hwf⟩ := hex
  have hne : ¬ (states.countP (fun s => s = SegmentState.completed) = states.length) := by
    intro hc
    have := List.countP_eq_length.mp hc w hw
    rw [hwf] at this
    simp at this
  rw [if_neg hne, if_pos]
  exact ⟨List.countP_pos_iff.mpr ⟨w, hw, by simp [hwf]⟩,
    countP_partition_cf states hall⟩

/-! ## C5 — termination transitions and meta deletion -/

/-- C5: on a supervisor tick, all segments `completed` makes the engine
`completed` and deletes the meta file; all segments in
`{completed, failed}` with at least one `failed` makes the engine
`failed` and keeps the meta (the `Bool` of `check_termination` is
whether `delete_meta` ran). -/
theorem termination_tick (states : List SegmentState) :
    ((∀ s ∈ states, s = SegmentState.completed) →
      check_termination states = some (DownloadState.completed, true)) ∧
    ((∀ s ∈ states, s = SegmentState.completed ∨ s = SegmentState.failed) →
     (∃ s ∈ states, s = SegmentState.failed) →
      check_termination states = some (DownloadState.failed, false)) :=
  ⟨check_termination_all_completed states,
   check_termination_some_failed states⟩

/-- Witness for C5 on the tables `[completed, completed]` and
`[completed, failed]`. -/
theorem termination_tick_witness :
    check_termination [SegmentState.completed, SegmentState.completed] =
      some (DownloadState.completed, true) ∧
    check_termination [SegmentState.completed, SegmentState.failed] =
      some (DownloadState.failed, false) := by
  constructor
  · exact (termination_tick _).1 (by decide)
  · exact (termination_tick _).2 (by decide) (by decide)

/-! ## C4 — after failure the meta survives, but `start()` is rejected -/

/-- C4 counterexample: the claim says a subsequent `start()` on a
failed engine succeeds and resumes; the guard at the top of
`DownloadEngine::start` rejects the `failed` state with
`network_error`. -/
theorem start_after_failed_counterexample :
    start_precheck DownloadState.failed = some DownloadErrc.network_error := by
  decide

/-- C4 amended: when the engine fails (tick sees every segment in
`{completed, failed}` with at least one `failed`) the resume meta is
retained (`delete_meta` does not run), but `start()` on the same engine
in state `failed` is rejected with `network_error`; resuming from the
retained meta requires a fresh engine. -/
theorem failed_retains_meta (states : List SegmentState)
    (hall : ∀ s ∈ states, s = SegmentState.completed ∨ s = SegmentState.failed)
    (hex : ∃ s ∈ states, s = SegmentState.failed) :
    check_termination states = some (DownloadState.failed, false) ∧
    start_precheck DownloadState.failed = some DownloadErrc.network_error :=
  ⟨check_termination_some_failed states hall hex, by decide⟩

/-- Witness for C4 on the table `[failed]`. -/
theorem failed_retains_meta_witness :
    check_termination [SegmentState.failed] = some (DownloadState.failed, false) ∧
    start_precheck DownloadState.failed = some DownloadErrc.network_error :=
  failed_retains_meta [SegmentState.failed] (by decide) (by decide)

/-! ## C6 — resume meta honored iff url and size match -/

/-- C6: during preparation a stored meta is honored (segments restored
with their `downloaded` counters) if and only if it loaded and its
`url` and `file_size` equal the live URL and HEAD size; otherwise a
fresh plan from `create_segments` is used (with range support forced
off when the HEAD size is 0). -/
theorem prepare_resume_iff (metaFile : Option DownloadMeta) (live_url : String)
    (head_size : ℕ) (head_ranges : Bool) :
    ((prepare_segments metaFile live_url head_size head_ranges).2 = true ↔
      ∃ m, metaFile = some m ∧ m.url = live_url ∧ m.file_size = head_size) ∧
    (∀ m, metaFile = some m → m.url = live_url → m.file_size = head_size →
      (prepare_segments metaFile live_url head_size head_ranges).1 =
        m.segments.map restore_segment) ∧
    ((prepare_segments metaFile live_url head_size head_ranges).2 = false →
      (prepare_segments metaFile live_url head_size head_ranges).1 =
        create_segments (if head_size = 0 then false else head_ranges) head_size) := by
  refine ⟨?_, ?_, ?_⟩
  · constructor
    · intro h
      rcases metaFile with _ | m
      · simp [prepare_segments] at h
      · by_cases hc : m.url = live_url ∧ m.file_size = head_size
        · exact ⟨m, rfl, hc.1, hc.2⟩
        · simp [prepare_segments, hc] at h
    · rintro ⟨m, hm, hu, hf⟩
      subst hm
      simp [prepare_segments, hu, hf]
  · intro m hm hu hf
    subst hm
    simp [prepare_segments, hu, hf]
  · intro h
    rcases metaFile with _ | m
    · simp [prepare_segments]
    · by_cases hc : m.url = live_url ∧ m.file_size = head_size
      · simp [prepare_segments, hc] at h
      · simp [prepare_segments, hc]

/-! ## Helper lemmas for C3 — the `create_segments` loop tiles the file -/

theorem segLoop_stop : ∀ fuel file_size seg_size offset file_offset id,
    file_size ≤ offset →
    segLoop fuel file_size seg_size offset file_offset id = [] := by
  intro fuel fs ss offset fo id h
  cases fuel with
  | zero => rfl
  | succ f => simp [segLoop, Nat.not_lt.mpr h]

theorem segLoop_succ (fuel file_size seg_size offset file_offset id : ℕ)
    (h : offset < file_size) :
    segLoop (fuel + 1) file_size seg_size offset file_offset id =
      Seg.create id offset (min seg_size (file_size - offset)) file_offset ::
        segLoop fuel file_size seg_size (offset + min seg_size (file_size - offset))
          (file_offset + min seg_size (file_size - offset)) (id + 1) := by
  simp [segLoop, h]

theorem segLoop_chained : ∀ fuel file_size seg_size offset file_offset id,
    0 < seg_size → offset ≤ file_size → file_size - offset ≤ fuel →
    Chained offset file_size (segLoop fuel file_size seg_size offset file_offset id) := by
  intro fuel
  induction fuel with
  | zero =>
    intro fs ss offset fo id _ h1 h2
    have : offset = fs := by omega
    simp [segLoop, Chained, this]
  | succ f ih =>
    intro fs ss offset fo id hss h1 h2
    by_cases ho : offset < fs
    · rw [segLoop_succ _ _ _ _ _ _ ho]
      refine ⟨rfl, ?_⟩
      have hle : min ss (fs - offset) ≤ fs - offset := Nat.min_le_right _ _
      have hts : 0 < min ss (fs - offset) := lt_min hss (by omega)
      exact ih fs ss (offset + min ss (fs - offset)) (fo + min ss (fs - offset)) (id + 1)
        hss (by omega) (by omega)
    · have : offset = fs := by omega
      simp [segLoop, Nat.not_lt.mpr (le_of_eq this.symm), Chained, this]

theorem chained_countP : ∀ (l : List Seg) (o fs : ℕ), Chained o fs l →
    ∀ i : ℕ, (o ≤ i → i < fs → l.countP (fun s => segCovers s i) = 1) ∧
      (i < o → l.countP (fun s => segCovers s i) = 0) := by
  intro l
  induction l with
  | nil =>
    intro o fs hch i
    exact ⟨fun h1 h2 => by unfold Chained at hch; omega, fun _ => rfl⟩
  | cons s t ih =>
    intro o fs hch i
    obtain ⟨hso, hch'⟩ := hch
    constructor
    · intro h1 h2
      by_cases hin : i < o + s.size
      · have hcov : segCovers s i = true := by
          unfold segCovers
          simp only [decide_eq_true_eq]
          omega
        have ht0 : t.countP (fun s => segCovers s i) = 0 :=
          (ih (o + s.size) fs hch' i).2 hin
        simp [List.countP_cons, hcov, ht0]
      · have hcov : segCovers s i = false := by
          unfold segCovers
          simp only [decide_eq_false_iff_not]
          omega
        have ht1 : t.countP (fun s => segCovers s i) = 1 :=
          (ih (o + s.size) fs hch' i).1 (by omega) h2
        simp [List.countP_cons, hcov, ht1]
    · intro h1
      have hcov : segCovers s i = false := by
        unfold segCovers
        simp only [decide_eq_false_iff_not]
        omega
      have ht0 : t.countP (fun s => segCovers s i) = 0 :=
        (ih (o + s.size) fs hch' i).2 (by omega)
      simp [List.countP_cons, hcov, ht0]

theorem segCountOf_ge_two (file_size : ℕ) : 2 ≤ segCountOf file_size := by
  unfold segCountOf
  split_ifs <;> omega

theorem create_segments_chained (supports_ranges : Bool) (file_size : ℕ) :
    Chained 0 file_size (create_segments supports_ranges file_size) := by
  unfold create_segments
  split_ifs with h
  · exact ⟨rfl, by simp [Seg.create, Chained]⟩
  · push_neg at h
    have hc := segCountOf_ge_two file_size
    have hfs : MIN_SEGMENT_SIZE ≤ file_size := h.2
    unfold MIN_SEGMENT_SIZE at hfs
    have hss : 0 < (file_size + segCountOf file_size - 1) / segCountOf file_size :=
      Nat.div_pos (by omega) (by omega)
    exact segLoop_chained file_size file_size _ 0 0 0 hss (Nat.zero_le _) le_rfl

theorem segCountOf_small {file_size : ℕ} (h2 : file_size < 1024 * 1024) :
    segCountOf file_size = 2 := by
  unfold segCountOf
  split_ifs <;> omega

/-! ## C3 — segment creation follows the planner table; full coverage -/

/-- C3 counterexample: the claim says a ranged file below 1 MiB gets
exactly two segments, but `create_segments` takes the single-segment
branch for every file smaller than `MIN_SEGMENT_SIZE` (256 KiB): a
1-byte ranged file yields one segment. -/
theorem create_segments_counterexample :
    (create_segments true 1).length = 1 ∧ (create_segments true 1).length ≠ 2 := by
  refine ⟨by decide, by decide⟩

/-- C3 amended: segment creation follows the planner table with the
256 KiB cutoff of the code: one segment when ranges are unsupported or
the size is below `MIN_SEGMENT_SIZE` (in particular when the size is
unknown, i.e. 0); exactly two when ranges are supported and the size is
in `[MIN_SEGMENT_SIZE, 1 MiB)`; and in every case each byte of the file
is covered by exactly one created segment. -/
theorem create_segments_plan (file_size : ℕ) :
    (∀ supports_ranges : Bool,
      (supports_ranges = false ∨ file_size < MIN_SEGMENT_SIZE) →
      (create_segments supports_ranges file_size).length = 1) ∧
    (MIN_SEGMENT_SIZE ≤ file_size → file_size < 1024 * 1024 →
      (create_segments true file_size).length = 2) ∧
    (∀ supports_ranges : Bool, ∀ i : ℕ, i < file_size →
      (create_segments supports_ranges file_size).countP
        (fun s => segCovers s i) = 1) := by
  refine ⟨?_, ?_, ?_⟩
  · intro ranges h
    unfold create_segments
    rw [if_pos]
    · rfl
    · rcases h with h | h
      · subst h; left; simp
      · right; exact h
  · intro h1 h2
    unfold create_segments
    rw [if_neg (by simp [Nat.not_lt.mpr h1])]
    rw [segCountOf_small h2]
    show (segLoop file_size file_size ((file_size + 2 - 1) / 2) 0 0 0).length = 2
    have hmin : MIN_SEGMENT_SIZE ≤ file_size := h1
    unfold MIN_SEGMENT_SIZE at hmin
    obtain ⟨k, hk⟩ : ∃ k, file_size = k + 2 := ⟨file_size - 2, by omega⟩
    subst hk
    rw [show (k + 2 : ℕ) = (k + 1) + 1 from rfl]
    rw [segLoop_succ _ _ _ _ _ _ (by omega)]
    rw [show min ((k + 1 + 1 + 2 - 1) / 2) (k + 1 + 1 - 0) = (k + 3) / 2 by omega]
    rw [segLoop_succ _ _ _ _ _ _ (by omega)]
    rw [segLoop_stop _ _ _ _ _ _ (by omega)]
    rfl
  · intro ranges i hi
    exact (chained_countP _ 0 file_size
      (create_segments_chained ranges file_size) i).1 (Nat.zero_le i) hi

/-- Witness for C3: a 500-byte non-ranged file gets one segment; a
500 000-byte ranged file gets two; byte 250000 of the latter is covered
exactly once. -/
theorem create_segments_plan_witness :
    (create_segments false 500).length = 1 ∧
    (create_segments true 500000).length = 2 ∧
    (create_segments true 500000).countP (fun s => segCovers s 250000) = 1 := by
  refine ⟨(create_segments_plan 500).1 false (Or.inl rfl),
    (create_segments_plan 500000).2.1 (by decide) (by decide),
    (create_segments_plan 500000).2.2 true 250000 (by decide)⟩

/-! ## Helper lemmas for C7 — save/load round trip -/

theorem digit_shape (n : ℕ) : ∀ c ∈ natToChars n, ∃ d, d < 10 ∧ c = digitChar d := by
  intro c hc
  unfold natToChars at hc
  by_cases h : n = 0
  · simp only [h, if_true, List.mem_singleton] at hc
    exact ⟨0, by omega, by rw [hc]; decide⟩
  · simp only [h, if_false] at hc
    obtain ⟨d, hd, hcd⟩ := List.mem_map.mp hc
    unfold decDigits at hd
    exact ⟨d, decDigitsAux_lt_ten n n d (List.mem_reverse.mp hd), hcd.symm⟩

theorem digitChar_isDig {d : ℕ} (h : d < 10) : isDig (digitChar d) = true := by
  interval_cases d <;> decide

theorem digitChar_not_ws {d : ℕ} (h : d < 10) : wsChar (digitChar d) = false := by
  interval_cases d <;> decide

theorem digitChar_ne_nl {d : ℕ} (h : d < 10) : digitChar d ≠ '\n' := by
  interval_cases d <;> decide

theorem natToChars_isDig (n : ℕ) : ∀ c ∈ natToChars n, isDig c = true := by
  intro c hc
  obtain ⟨d, hd, rfl⟩ := digit_shape n c hc
  exact digitChar_isDig hd

theorem natToChars_not_ws (n : ℕ) : ∀ c ∈ natToChars n, wsChar c = false := by
  intro c hc
  obtain ⟨d, hd, rfl⟩ := digit_shape n c hc
  exact digitChar_not_ws hd

theorem nl_not_mem_natToChars (n : ℕ) : '\n' ∉ natToChars n := by
  intro h
  obtain ⟨d, hd, hc⟩ := digit_shape n '\n' h
  exact digitChar_ne_nl hd hc.symm

theorem takeWhile_append_each (p : Char → Bool) : ∀ l r : List Char,
    (∀ c ∈ l, p c = true) → (∀ c, r.head? = some c → p c = false) →
    (l ++ r).takeWhile p = l := by
  intro l
  induction l with
  | nil =>
    intro r _ hr
    cases r with
    | nil => rfl
    | cons a t => simp [List.takeWhile_cons, hr a rfl]
  | cons a t ih =>
    intro r hl hr
    simp only [List.cons_append, List.takeWhile_cons,
      hl a (List.mem_cons_self a t), if_true]
    rw [ih r (fun c hc => hl c (List.mem_cons_of_mem a hc)) hr]

theorem dropWhile_append_each (p : Char → Bool) : ∀ l r : List Char,
    (∀ c ∈ l, p c = true) → (∀ c, r.head? = some c → p c = false) →
    (l ++ r).dropWhile p = r := by
  intro l
  induction l with
  | nil =>
    intro r _ hr
    cases r with
    | nil => rfl
    | cons a t => simp [List.dropWhile_cons, hr a rfl]
  | cons a t ih =>
    intro r hl hr
    simp only [List.cons_append, List.dropWhile_cons,
      hl a (List.mem_cons_self a t), if_true]
    exact ih r (fun c hc => hl c (List.mem_cons_of_mem a hc)) hr

theorem dropWhile_cons_false {p : Char → Bool} {a : Char} {l : List Char}
    (h : p a = false) : (a :: l).dropWhile p = a :: l := by
  simp [List.dropWhile_cons, h]

theorem takeWhile_all (p : Char → Bool) : ∀ l : List Char,
    (∀ c ∈ l, p c = true) → l.takeWhile p = l := by
  intro l
  induction l with
  | nil => intro _; rfl
  | cons a t ih =>
    intro hl
    simp only [List.takeWhile_cons, hl a (List.mem_cons_self a t), if_true]
    rw [ih (fun c hc => hl c (List.mem_cons_of_mem a hc))]

theorem dropWhile_all (p : Char → Bool) : ∀ l : List Char,
    (∀ c ∈ l, p c = true) → l.dropWhile p = [] := by
  intro l
  induction l with
  | nil => intro _; rfl
  | cons a t ih =>
    intro hl
    simp only [List.dropWhile_cons, hl a (List.mem_cons_self a t), if_true]
    exact ih (fun c hc => hl c (List.mem_cons_of_mem a hc))

theorem head_space_not_dig (x : List Char) :
    ∀ c : Char, ((' ' :: x).head? = some c) → isDig c = false := by
  intro c hc
  simp only [List.head?] at hc
  injection hc with hc
  rw [← hc]
  decide

theorem natToChars_dropWhile_ws (v : ℕ) (r : List Char) :
    (natToChars v ++ r).dropWhile wsChar = natToChars v ++ r := by
  cases hn : natToChars v with
  | nil => exact absurd hn (natToChars_ne_nil v)
  | cons c cs =>
    simp only [List.cons_append]
    exact dropWhile_cons_false
      (natToChars_not_ws v c (by rw [hn]; exact List.mem_cons_self c cs))

theorem natToChars_dropWhile_ws_nil (v : ℕ) :
    (natToChars v).dropWhile wsChar = natToChars v := by
  cases hn : natToChars v with
  | nil => exact absurd hn (natToChars_ne_nil v)
  | cons c cs =>
    exact dropWhile_cons_false
      (natToChars_not_ws v c (by rw [hn]; exact List.mem_cons_self c cs))

theorem parseField_digits (v : ℕ) (r : List Char)
    (hr : ∀ c, r.head? = some c → isDig c = false) :
    parseField (natToChars v ++ r) = (v, r) := by
  unfold parseField
  show (strToNat (((natToChars v ++ r).dropWhile wsChar).takeWhile isDig),
    ((natToChars v ++ r).dropWhile wsChar).dropWhile isDig) = (v, r)
  rw [natToChars_dropWhile_ws,
    takeWhile_append_each isDig _ _ (natToChars_isDig v) hr,
    dropWhile_append_each isDig _ _ (natToChars_isDig v) hr,
    strToNat_natToChars]

theorem parseField_digits_nil (v : ℕ) : parseField (natToChars v) = (v, []) := by
  unfold parseField
  show (strToNat (((natToChars v).dropWhile wsChar).takeWhile isDig),
    ((natToChars v).dropWhile wsChar).dropWhile isDig) = (v, [])
  rw [natToChars_dropWhile_ws_nil,
    takeWhile_all isDig _ (natToChars_isDig v),
    dropWhile_all isDig _ (natToChars_isDig v),
    strToNat_natToChars]

theorem parseField_space (cs : List Char) : parseField (' ' :: cs) = parseField cs := by
  unfold parseField
  rw [show (' ' :: cs).dropWhile wsChar = cs.dropWhile wsChar from by
    simp [List.dropWhile_cons, show wsChar ' ' = true from by decide]]

theorem parseSegLine_segMetaLine (sm : SegmentMeta) :
    parseSegLine (segMetaLine sm) = sm := by
  obtain ⟨a, b, c, d, e⟩ := sm
  unfold parseSegLine segMetaLine
  dsimp only
  rw [parseField_digits a _ (head_space_not_dig _)]
  dsimp only
  rw [parseField_space, parseField_digits b _ (head_space_not_dig _)]
  dsimp only
  rw [parseField_space, parseField_digits c _ (head_space_not_dig _)]
  dsimp only
  rw [parseField_space, parseField_digits d _ (head_space_not_dig _)]
  dsimp only
  rw [parseField_space, parseField_digits_nil e]

theorem getLine_append (l r : List Char) (hl : '\n' ∉ l) :
    getLine (l ++ '\n' :: r) = (l, r) := by
  induction l with
  | nil => simp [getLine]
  | cons a t ih =>
    have ha : ¬ (a = '\n') := fun h => hl (by rw [h]; exact List.mem_cons_self _ _)
    have ht : '\n' ∉ t := fun h => hl (List.mem_cons_of_mem a h)
    simp only [List.cons_append, getLine, if_neg ha]
    rw [show t.append ('\n' :: r) = t ++ '\n' :: r from rfl, ih ht]

theorem getLine?_append (l r : List Char) (hl : '\n' ∉ l) :
    getLine? (l ++ '\n' :: r) = some (l, r) := by
  unfold getLine?
  rw [if_neg (by cases l <;> simp), getLine_append l r hl]

theorem nl_not_mem_segMetaLine (sm : SegmentMeta) : '\n' ∉ segMetaLine sm := by
  unfold segMetaLine
  intro h
  rcases List.mem_append.mp h with h | h
  · exact nl_not_mem_natToChars _ h
  rcases List.mem_cons.mp h with h | h
  · exact absurd h (by decide)
  rcases List.mem_append.mp h with h | h
  · exact nl_not_mem_natToChars _ h
  rcases List.mem_cons.mp h with h | h
  · exact absurd h (by decide)
  rcases List.mem_append.mp h with h | h
  · exact nl_not_mem_natToChars _ h
  rcases List.mem_cons.mp h with h | h
  · exact absurd h (by decide)
  rcases List.mem_append.mp h with h | h
  · exact nl_not_mem_natToChars _ h
  rcases List.mem_cons.mp h with h | h
  · exact absurd h (by decide)
  exact nl_not_mem_natToChars _ h

theorem stoullOpt_natToChars (v : ℕ) : stoullOpt (natToChars v) = some v := by
  unfold stoullOpt
  show (if (((natToChars v).dropWhile wsChar).takeWhile isDig).isEmpty = true
    then none
    else some (strToNat (((natToChars v).dropWhile wsChar).takeWhile isDig))) =
      some v
  rw [natToChars_dropWhile_ws_nil, takeWhile_all isDig _ (natToChars_isDig v)]
  rw [if_neg (by
    cases hn : natToChars v with
    | nil => exact absurd hn (natToChars_ne_nil v)
    | cons c cs => simp [hn])]
  rw [strToNat_natToChars]

theorem loadSegs_round : ∀ (sms : List SegmentMeta) (rest : List Char),
    loadSegs sms.length
      ((sms.map (fun sm => segMetaLine sm ++ ['\n'])).flatten ++ rest) =
      some (sms, rest) := by
  intro sms
  induction sms with
  | nil => intro rest; simp [loadSegs]
  | cons sm t ih =>
    intro rest
    simp only [List.map_cons, List.flatten_cons, List.length_cons, loadSegs,
      List.append_assoc, List.singleton_append, List.cons_append]
    rw [getLine?_append _ _ (nl_not_mem_segMetaLine sm)]
    dsimp only
    simp only [List.nil_append]
    rw [ih rest]
    dsimp only
    rw [parseSegLine_segMetaLine]

/-! ## C7 — resume meta save/load round trip -/

/-- C7: for every `DownloadMeta` whose `url` and `output_path` contain
no line break, saving and then loading yields a structurally equal
record (same `url`, `output_path`, `file_size`, `total_downloaded` and
segment list). -/
theorem meta_save_load_roundtrip (m : DownloadMeta)
    (h1 : '\n' ∉ m.url.data) (h2 : '\n' ∉ m.output_path.data) :
    DownloadMeta.load (DownloadMeta.save m) = Except.ok m := by
  obtain ⟨u, o, fs, td, sms⟩ := m
  unfold DownloadMeta.save DownloadMeta.load
  rw [getLine?_append _ _ h1]
  dsimp only
  rw [getLine?_append _ _ h2]
  dsimp only
  rw [getLine?_append _ _ (nl_not_mem_natToChars fs)]
  dsimp only
  rw [stoullOpt_natToChars]
  dsimp only
  rw [getLine?_append _ _ (nl_not_mem_natToChars td)]
  dsimp only
  rw [stoullOpt_natToChars]
  dsimp only
  rw [getLine?_append _ _ (nl_not_mem_natToChars sms.length)]
  dsimp only
  rw [stoullOpt_natToChars]
  dsimp only
  rw [show (sms.map (fun sm => segMetaLine sm ++ ['\n'])).flatten =
    (sms.map (fun sm => segMetaLine sm ++ ['\n'])).flatten ++ [] by simp]
  rw [loadSegs_round]
  rfl

/-- Witness for C7 on a concrete two-segment meta record. -/
theorem meta_save_load_roundtrip_witness :
    DownloadMeta.load (DownloadMeta.save
      { url := "http://a/b", output_path := "b", file_size := 25,
        total_downloaded := 7,
        segments := [{ id := 0, offset := 0, size := 13, file_offset := 0,
                       downloaded := 7 },
                     { id := 1, offset := 13, size := 12, file_offset := 13,
                       downloaded := 0 }] }) =
    Except.ok
      { url := "http://a/b", output_path := "b", file_size := 25,
        total_downloaded := 7,
        segments := [{ id := 0, offset := 0, size := 13, file_offset := 0,
                       downloaded := 7 },
                     { id := 1, offset := 13, size := 12, file_offset := 13,
                       downloaded := 0 }] } :=
  meta_save_load_roundtrip _ (by decide) (by decide)

/-! ## Helper lemma for C9 -/

theorem urlComponents_path_default (s : List Char) (se : ℕ)
    (h : findCharFrom s '/' (se + 3) = none) :
    (urlComponents s se).path = ['/'] := by
  unfold urlComponents
  dsimp only
  rw [h]
  simp only [Option.getD_none]
  rw [if_neg (lt_irrefl s.length)]

/-! ## C9 — `Url::parse` failure conditions and success invariants -/

/-- C9 counterexample: the claim says every successfully parsed URL has
a non-empty scheme, but `Url::parse` only checks for the `"://"`
delimiter and a non-empty host: the input `"://h"` parses successfully
with an empty scheme. -/
theorem url_parse_empty_scheme_counterexample :
    Url.parse "://h".data =
      Except.ok { scheme := [], host := ['h'], port := [], path := ['/'],
                  query := [], fragment := [] } ∧
    (urlComponents "://h".data 0).scheme = [] := by
  refine ⟨by rfl, by rfl⟩

/-- C9 amended: `Url::parse` fails with `invalid_url` exactly when the
input lacks the `"://"` delimiter or the extracted host is empty; every
successfully parsed URL has a non-empty host, and its path defaults to
`"/"` when the input has no `'/'` after the delimiter.  The scheme (the
lowercased prefix before `"://"`) may be empty. -/
theorem url_parse_spec :
    (∀ s : List Char, findSub s "://".data = none →
      Url.parse s = Except.error DownloadErrc.invalid_url) ∧
    (∀ s : List Char, ∀ se : ℕ, findSub s "://".data = some se →
      (Url.parse s = Except.error DownloadErrc.invalid_url ↔
        (urlComponents s se).host = [])) ∧
    (∀ (s : List Char) (u : Url), Url.parse s = Except.ok u → u.host ≠ []) ∧
    (∀ (s : List Char) (se : ℕ) (u : Url), Url.parse s = Except.ok u →
      findSub s "://".data = some se → findCharFrom s '/' (se + 3) = none →
      u.path = ['/']) := by
  refine ⟨?_, ?_, ?_, ?_⟩
  · intro s h
    unfold Url.parse
    rw [h]
    rfl
  · intro s se h
    unfold Url.parse
    rw [h]
    dsimp only
    by_cases hh : (urlComponents s se).host = []
    · rw [if_pos hh]
      exact ⟨fun _ => hh, fun _ => rfl⟩
    · rw [if_neg hh]
      constructor
      · intro hp
        exact absurd hp (by simp [pure, Except.pure])
      · intro hp
        exact absurd hp hh
  · intro s u h
    unfold Url.parse at h
    cases hfind : findSub s "://".data with
    | none => rw [hfind] at h; exact absurd h (by simp)
    | some se =>
      rw [hfind] at h
      dsimp only at h
      by_cases hh : (urlComponents s se).host = []
      · rw [if_pos hh] at h
        exact absurd h (by simp)
      · rw [if_neg hh] at h
        simp only [pure, Except.pure, Except.ok.injEq] at h
        rw [← h]
        exact hh
  · intro s se u h hfind hpath
    unfold Url.parse at h
    rw [hfind] at h
    dsimp only at h
    by_cases hh : (urlComponents s se).host = []
    · rw [if_pos hh] at h
      exact absurd h (by simp)
    · rw [if_neg hh] at h
      simp only [pure, Except.pure, Except.ok.injEq] at h
      rw [← h]
      exact urlComponents_path_default s se hpath

/-- Witness for C9: `"abc"` (no delimiter) is rejected; `"http:///x"`
(empty host) is rejected; `"http://h"` parses with host `h` and the
default path `/`. -/
theorem url_parse_spec_witness :
    Url.parse "abc".data = Except.error DownloadErrc.invalid_url ∧
    Url.parse "http:///x".data = Except.error DownloadErrc.invalid_url ∧
    ({ scheme := "http".data, host := ['h'], port := [], path := ['/'],
       query := [], fragment := [] } : Url).path = ['/'] ∧
    ({ scheme := "http".data, host := ['h'], port := [], path := ['/'],
       query := [], fragment := [] } : Url).host ≠ [] := by
  refine ⟨?_, ?_, ?_, ?_⟩
  · exact url_parse_spec.1 "abc".data (by decide)
  · exact (url_parse_spec.2.1 "http:///x".data 4 (by decide)).mpr (by decide)
  · exact url_parse_spec.2.2.2 "http://h".data 4 _ (by rfl) (by decide) (by decide)
  · exact url_parse_spec.2.2.1 "http://h".data _ (by rfl)

/-- Witness for C6: a matching meta is restored; a size-mismatching
meta is discarded for a fresh plan. -/
theorem prepare_resume_iff_witness :
    (prepare_segments
      (some { url := "http://e/f", output_path := "f", file_size := 10,
              total_downloaded := 4,
              segments := [{ id := 0, offset := 0, size := 10, file_offset := 0,
                             downloaded := 4 }] })
      "http://e/f" 10 true).1 =
      List.map restore_segment
        [{ id := 0, offset := 0, size := 10, file_offset := 0, downloaded := 4 }] ∧
    (prepare_segments
      (some { url := "http://e/f", output_path := "f", file_size := 11,
              total_downloaded := 4, segments := [] })
      "http://e/f" 10 true).1 =
      create_segments (if (10 : ℕ) = 0 then false else true) 10 := by
  constructor
  · exact (prepare_resume_iff _ _ _ _).2.1 _ rfl rfl rfl
  · exact (prepare_resume_iff _ _ _ _).2.2 (by decide)

end Bolt
